import Mathlib

/-!
Shallow embedding of the HTML structural heuristic analyzer
(`content_density_evaluator` and `accessibility_surface_check`).

Markup is modelled as `List Char`.  The JavaScript regular-expression
scans are modelled by explicit recursive scanners with the same
left-to-right, non-overlapping, first-match semantics:

* `s.replace(/<[^>]*>/g, " ")` is the state machine `rtAux`;
* `s.replace(/\s+/g, " ")` is the state machine `cwAux`;
* `.trim()` is `trimWs`;
* `new RegExp("<tag\\b[^>]*>([\\s\\S]*?)</tag>", "gi")` scanning is
  `getTagContents` built from `matchOpenTag` (open tag with a word
  boundary after the tag name) and `findCloseSplit` (the earliest
  closing tag, as demanded by the lazy `*?`);
* the attribute reads `/\balt\s*=\s*"([^"]*)"/i` and
  `/\baria-label\s*=\s*"([^"]*)"/i` (and their single-quote variants)
  are `findAttrAux`, which threads the previous character to decide
  the `\b` word boundary.
-/

namespace OpalAnalyzer

/-- Whitespace class used by the JavaScript `\s`, `trim`, and `split(/\s+/)`
(restricted to the ASCII whitespace characters, the only ones relevant
to the analyzer). -/
def isWs (c : Char) : Bool :=
  c == ' ' || c == '\t' || c == '\n' || c == '\r' || c == '\x0b' || c == '\x0c'

/-- Word character class of the JavaScript `\w`, which determines `\b`
word boundaries: letters, digits and underscore. -/
def isWordChar (c : Char) : Bool :=
  ('a' ≤ c && c ≤ 'z') || ('A' ≤ c && c ≤ 'Z') || ('0' ≤ c && c ≤ '9') || c == '_'

/-- ASCII lower-casing, for the case-insensitive `i` regex flag. -/
def lcChar (c : Char) : Char :=
  if 'A' ≤ c && c ≤ 'Z' then Char.ofNat (c.toNat + 32) else c

/-- Case-insensitive literal match at the front of the input; returns the
rest of the input after the matched pattern. -/
def ciStarts : List Char → List Char → Option (List Char)
  | [], l => some l
  | _ :: _, [] => none
  | p :: ps, c :: cs => if lcChar c == lcChar p then ciStarts ps cs else none

/-- Split at the first `>` character: `some (before, after)` where
`before` has no `>`; `none` when there is no `>` at all.  This is how
the greedy `[^>]*>` consumes input. -/
def splitAtGt : List Char → Option (List Char × List Char)
  | [] => none
  | c :: rest =>
    if c == '>' then some ([], rest)
    else
      match splitAtGt rest with
      | some (pre, post) => some (c :: pre, post)
      | none => none

/-- Characters strictly before the first occurrence of `q`; `none` when
`q` does not occur.  This is how `([^"]*)"` captures a quoted value. -/
def takeUntil (q : Char) : List Char → Option (List Char)
  | [] => none
  | c :: rest => if c == q then some [] else (takeUntil q rest).map (c :: ·)

/-- State machine for `s.replace(/<[^>]*>/g, " ")`.  The state is `none`
outside a candidate tag and `some pend` inside one, where `pend` holds
the characters consumed since the opening `<` (in reverse, including
the `<` itself) in case no `>` ever arrives. -/
def rtAux : Option (List Char) → List Char → List Char
  | none, [] => []
  | none, c :: rest => if c == '<' then rtAux (some ['<']) rest else c :: rtAux none rest
  | some pend, [] => pend.reverse
  | some pend, c :: rest =>
    if c == '>' then ' ' :: rtAux none rest else rtAux (some (c :: pend)) rest

/-- First step of the source `stripTags`: replace every `<[^>]*>` tag
with a single space. -/
def replaceTags (l : List Char) : List Char := rtAux none l

/-- State machine for `s.replace(/\s+/g, " ")`: the flag records whether
the previous character was whitespace (so the run is already replaced). -/
def cwAux : Bool → List Char → List Char
  | _, [] => []
  | inWs, c :: rest =>
    if isWs c then
      if inWs then cwAux true rest else ' ' :: cwAux true rest
    else c :: cwAux false rest

/-- Second step of the source `stripTags`: collapse each whitespace run
to a single space. -/
def collapseWs (l : List Char) : List Char := cwAux false l

/-- Drop leading whitespace. -/
def trimLeft (l : List Char) : List Char := l.dropWhile isWs

/-- Drop trailing whitespace. -/
def trimRight (l : List Char) : List Char := (l.reverse.dropWhile isWs).reverse

/-- The JavaScript `String.prototype.trim`. -/
def trimWs (l : List Char) : List Char := trimRight (trimLeft l)

/-- The source helper
`stripTags(s) = s.replace(/<[^>]*>/g, " ").replace(/\s+/g, " ").trim()`,
shared by the density evaluator and (inlined) by the button visible-text
computation of the accessibility check. -/
def stripTags (l : List Char) : List Char := trimWs (collapseWs (replaceTags l))

/-- String-level wrapper of `stripTags`. -/
def stripTagsStr (s : String) : String := String.mk (stripTags s.data)

/-- Number of tokens of `split(/\s+/).filter(Boolean)`: maximal nonempty
runs of non-whitespace characters.  The flag records whether the scan is
currently inside a token. -/
def countTokensAux : Bool → List Char → Nat
  | _, [] => 0
  | inTok, c :: rest =>
    if isWs c then countTokensAux false rest
    else (if inTok then 0 else 1) + countTokensAux true rest

/-- Token count of a fragment. -/
def tokenCount (l : List Char) : Nat := countTokensAux false l

/-- Generic fueled left-to-right regex-style scanner: at each position try
`step`; on a match emit its result and resume after the consumed input,
otherwise advance one character.  Every successful step consumes at least
one character, so fuel equal to the input length never runs out. -/
def scanA {α : Type} (step : List Char → Option (α × List Char)) : Nat → List Char → List α
  | 0, _ => []
  | _ + 1, [] => []
  | fuel + 1, c :: rest =>
    match step (c :: rest) with
    | some (a, r) => a :: scanA step fuel r
    | none => scanA step fuel rest

/-- Match an opening tag `<name\b[^>]*>` at the head of the input
(case-insensitive tag name).  Returns the matched text (original casing)
and the rest after the `>`.  The `\b` requires the character after the
tag name to be a non-word character. -/
def matchOpenTag (name : List Char) : List Char → Option (List Char × List Char)
  | '<' :: rest =>
    match ciStarts name rest with
    | some r1 =>
      match r1 with
      | [] => none
      | e :: _ =>
        if isWordChar e then none
        else
          match splitAtGt r1 with
          | some (mid, after) => some ('<' :: (rest.take name.length ++ mid ++ ['>']), after)
          | none => none
    | none => none
  | _ => none

/-- Match a literal closing tag `</name>` (case-insensitive) at the head
of the input, returning its original text and the rest. -/
def tryClose (name : List Char) : List Char → Option (List Char × List Char)
  | '<' :: '/' :: r =>
    (match ciStarts name r with
     | some ('>' :: r2) => some ('<' :: '/' :: (r.take name.length ++ ['>']), r2)
     | _ => none)
  | _ => none

/-- Find the earliest closing tag `</name>` in the input (the lazy
`([\s\S]*?)` semantics): `some (content, closeText, rest)`. -/
def findCloseSplit (name : List Char) : List Char → Option (List Char × List Char × List Char)
  | [] => none
  | c :: rest =>
    match tryClose name (c :: rest) with
    | some (ct, r2) => some ([], ct, r2)
    | none =>
      match findCloseSplit name rest with
      | some (content, ct, r2) => some (c :: content, ct, r2)
      | none => none

/-- Step of `getTagContents`: a full `<name\b[^>]*>([\s\S]*?)</name>`
match, yielding the captured inner content. -/
def stepTagContent (name : List Char) (l : List Char) : Option (List Char × List Char) :=
  match matchOpenTag name l with
  | some (_, afterOpen) =>
    match findCloseSplit name afterOpen with
    | some (content, _, afterClose) => some (content, afterClose)
    | none => none
  | none => none

/-- The source helper `getTagContents(html, tag)`: inner contents of all
non-overlapping `<tag ...>...</tag>` occurrences in document order. -/
def getTagContents (name : List Char) (l : List Char) : List (List Char) :=
  scanA (stepTagContent name) l.length l

/-! ## Content density evaluator (`content_density_evaluator`) -/

/-- Normalized nonempty paragraph texts:
`getTagContents(html, "p").map(stripTags).filter(t => t.length > 0)`. -/
def paragraphTexts (html : List Char) : List (List Char) :=
  ((getTagContents "p".data html).map stripTags).filter (fun t => !t.isEmpty)

/-- Step matching one `<img\b[^>]*>` occurrence, returning its full text. -/
def stepImgTag (l : List Char) : Option (List Char × List Char) :=
  matchOpenTag "img".data l

/-- All `<img\b[^>]*>` matches of `html.match(/<img\b[^>]*>/gi) || []`,
each as its matched text. -/
def imgTagsOf (html : List Char) : List (List Char) :=
  scanA stepImgTag html.length html

/-- The density metric `imageCount`. -/
def imageCount (html : List Char) : Nat := (imgTagsOf html).length

/-- Step matching one opening heading tag `<h[1-6]\b[^>]*>`. -/
def stepOpenHeading : List Char → Option (Unit × List Char)
  | '<' :: c :: d :: rest =>
    if (c == 'h' || c == 'H') && ('1' ≤ d && d ≤ '6') then
      match rest with
      | [] => none
      | e :: _ =>
        if isWordChar e then none
        else
          match splitAtGt rest with
          | some (_, after) => some ((), after)
          | none => none
    else none
  | _ => none

/-- The density metric `headingCount`:
`(html.match(/<h[1-6]\b[^>]*>/gi) || []).length`. -/
def headingCount (html : List Char) : Nat :=
  (scanA stepOpenHeading html.length html).length

/-- Per-paragraph token counts:
`paragraphTexts.map(p => p.split(/\s+/).filter(Boolean).length)`. -/
def paragraphWordCounts (html : List Char) : List Nat :=
  (paragraphTexts html).map tokenCount

/-- The density metric `avgParagraphLength` before rounding: zero when
there are no paragraphs, otherwise the mean of the per-paragraph token
counts. -/
def avgParagraphLength (html : List Char) : ℚ :=
  let counts := paragraphWordCounts html
  if counts.length = 0 then 0 else ((counts.sum : ℚ)) / (counts.length : ℚ)

/-- The density metric `scanabilityScore`: start at 100, subtract 20 for
each failed heuristic, clamp at zero. -/
def scanabilityScore (html : List Char) : Int :=
  let s0 : Int := 100
  let s1 : Int := if avgParagraphLength html > 100 then s0 - 20 else s0
  let s2 : Int := if imageCount html = 0 then s1 - 20 else s1
  let s3 : Int := if headingCount html = 0 then s2 - 20 else s2
  if s3 < 0 then 0 else s3

/-- The advisory notes of the density evaluator, pushed in source order:
paragraph-length note (threshold `avgParagraphLength > 80`), image note,
heading note. -/
def densityNotes (html : List Char) : List String :=
  (if avgParagraphLength html > 80 then
    "Paragraphs are long; consider splitting large blocks of text."
   else "Paragraph length seems reasonable.") ::
  (if imageCount html = 0 then
    "No images found; consider adding supporting visuals."
   else "Contains imagery to break up text.") ::
  (if headingCount html = 0 then
    "No headings found; add subheadings to improve scanning."
   else "Has headings to guide the reader.") :: []

/-! ## Accessibility surface check (`accessibility_surface_check`) -/

/-- The accessibility metric `h1Count`:
`(html.match(/<h1\b[^>]*>([\s\S]*?)<\/h1>/gi) || []).length`. -/
def h1Count (html : List Char) : Nat := (getTagContents "h1".data html).length

/-- Single quote character (used by the single-quoted attribute regexes). -/
def singleQuote : Char := Char.ofNat 39

/-- Attempt `name\s*=\s*q([^q]*)q` at the head of the input
(case-insensitive name), returning the captured value. -/
def matchAttrHere (name : List Char) (q : Char) (l : List Char) : Option (List Char) :=
  match ciStarts name l with
  | some r1 =>
    (match r1.dropWhile isWs with
     | '=' :: r2 =>
       (match r2.dropWhile isWs with
        | c :: r3 => if c == q then takeUntil q r3 else none
        | [] => none)
     | _ => none)
  | none => none

/-- First match of `\bname\s*=\s*q([^q]*)q` in the input, scanning left
to right; `prevW` records whether the previous character was a word
character, which decides the `\b` word boundary before the name. -/
def findAttrAux (name : List Char) (q : Char) : Bool → List Char → Option (List Char)
  | _, [] => none
  | prevW, c :: rest =>
    match (if prevW then none else matchAttrHere name q (c :: rest)) with
    | some v => some v
    | none => findAttrAux name q (isWordChar c) rest

/-- The attribute read of the source: try the double-quoted pattern over
the whole fragment first, then the single-quoted one; `none` models the
JavaScript `null`. -/
def getAttrValue (name : List Char) (frag : List Char) : Option (List Char) :=
  match findAttrAux name '"' false frag with
  | some v => some v
  | none => findAttrAux name singleQuote false frag

/-- Missing-alt test of one `<img>` tag:
`altValue === null || altValue.trim() === ""`. -/
def missingAltB (tag : List Char) : Bool :=
  match getAttrValue "alt".data tag with
  | none => true
  | some v => (trimWs v).isEmpty

/-- The accessibility metric `imagesMissingAlt`. -/
def imagesMissingAlt (html : List Char) : Nat :=
  (imgTagsOf html).countP missingAltB

/-- Step matching one `<button\b[^>]*>([\s\S]*?)</button>` occurrence;
yields the full block text together with the inner content. -/
def stepButtonBlock (l : List Char) : Option ((List Char × List Char) × List Char) :=
  match matchOpenTag "button".data l with
  | some (openTxt, afterOpen) =>
    match findCloseSplit "button".data afterOpen with
    | some (content, closeTxt, afterClose) =>
      some ((openTxt ++ content ++ closeTxt, content), afterClose)
    | none => none
  | none => none

/-- All button blocks of the markup, as (full block, inner content). -/
def buttonBlocksOf (html : List Char) : List (List Char × List Char) :=
  scanA stepButtonBlock html.length html

/-- Unlabeled test of one button block: empty visible text (inner content
stripped of markup and normalized) and absent or empty `aria-label`
(searched over the whole block, without trimming). -/
def unlabeledB (bc : List Char × List Char) : Bool :=
  (stripTags bc.2).isEmpty &&
    (match getAttrValue "aria-label".data bc.1 with
     | none => true
     | some v => v.isEmpty)

/-- The accessibility metric `unlabeledButtons`. -/
def unlabeledButtons (html : List Char) : Nat :=
  (buttonBlocksOf html).countP unlabeledB

/-- Step matching one `<(h[1-6])\b[^>]*>([\s\S]*?)</\1>` occurrence,
yielding the numeric heading level. -/
def matchHeading : List Char → Option (Nat × List Char)
  | '<' :: c :: d :: rest =>
    if (c == 'h' || c == 'H') && ('1' ≤ d && d ≤ '6') then
      match rest with
      | [] => none
      | e :: _ =>
        if isWordChar e then none
        else
          match splitAtGt rest with
          | some (_, afterOpen) =>
            (match findCloseSplit [c, d] afterOpen with
             | some (_, _, afterClose) => some (d.toNat - 48, afterClose)
             | none => none)
          | none => none
    else none
  | _ => none

/-- Document-order heading levels of the accessibility check. -/
def headingLevelsOf (html : List Char) : List Nat :=
  scanA matchHeading html.length html

/-- The consecutive-pair walk of the source: count positions where the
current level exceeds the previous one by more than 2. -/
def countJumps : List Nat → Nat
  | a :: b :: rest => (if a + 2 < b then 1 else 0) + countJumps (b :: rest)
  | _ => 0

/-- The accessibility metric `headingOrderIssues`. -/
def headingOrderIssues (html : List Char) : Nat :=
  countJumps (headingLevelsOf html)

/-- The accessibility score: start at 100, two independent h1 penalties,
linear penalties per defect, clamp at zero. -/
def accessibilityScore (html : List Char) : Int :=
  let s0 : Int := 100
  let s1 : Int := if h1Count html = 0 then s0 - 10 else s0
  let s2 : Int := if h1Count html > 1 then s1 - 10 else s1
  let s3 : Int := s2 - 2 * (imagesMissingAlt html : Int)
  let s4 : Int := s3 - 3 * (unlabeledButtons html : Int)
  let s5 : Int := s4 - 5 * (headingOrderIssues html : Int)
  if s5 < 0 then 0 else s5

/-! ## Reference definitions taken from the wording of the specification

These definitions follow the words of the specification (and of the
claims derived from it), to be compared with the definitions above that
embed the source. -/

/-- Reference tag handling following the words of the specification:
replace every maximal substring between `<` and `>` (brackets included)
by `rep` — `rep = []` is the removal the specification describes,
`rep = [' ']` is replacement by a single space.  Fueled so that the
recursion is structural; fuel equal to the input length always
suffices. -/
def specReplaceAux (rep : List Char) : Nat → List Char → List Char
  | 0, l => l
  | _ + 1, [] => []
  | fuel + 1, c :: rest =>
    if c == '<' then
      match splitAtGt rest with
      | some (_, after) => rep ++ specReplaceAux rep fuel after
      | none => c :: specReplaceAux rep fuel rest
    else c :: specReplaceAux rep fuel rest

/-- Reference tag replacement with full fuel. -/
def specReplace (rep : List Char) (l : List Char) : List Char :=
  specReplaceAux rep l.length l

/-- Reference normalizer following the claim wording for the Text
Normalizer: delete tag markup, collapse whitespace, trim. -/
def specNormalizeDelete (l : List Char) : List Char :=
  trimWs (collapseWs (specReplace [] l))

/-- Reference normalizer with tags replaced by a single space instead of
deleted. -/
def specNormalizeSpace (l : List Char) : List Char :=
  trimWs (collapseWs (specReplace [' '] l))

/-- Modelled from the spec (§4.2, §3): an attribute named `name` is
present in a tag fragment when the name occurs as its own
whitespace-delimited attribute token: preceded by a whitespace
character, matched case-insensitively, and followed by optional
whitespace and `=`.  The scan threads the previous character. -/
def specHasAttrAux (name : List Char) : Char → List Char → Bool
  | _, [] => false
  | prev, c :: rest =>
    (isWs prev &&
      (match ciStarts name (c :: rest) with
       | some r =>
         (match r.dropWhile isWs with
          | '=' :: _ => true
          | _ => false)
       | none => false)) || specHasAttrAux name c rest

/-- Attribute presence per the specification wording. -/
def specHasAttr (name : List Char) : List Char → Bool
  | [] => false
  | c :: rest => specHasAttrAux name c rest

/-! ## Normal-form predicates used in the idempotence development -/

/-- Holds when no tag replacement is possible any more: no `<` in the
list is followed (anywhere later) by a `>`. -/
def noTag : List Char → Bool
  | [] => true
  | c :: rest => (c != '<' || decide ('>' ∉ rest)) && noTag rest

/-- Holds when whitespace is in normal form: every whitespace character
is a plain space, and no whitespace character is immediately followed by
another whitespace character. -/
def wsOk : List Char → Bool
  | [] => true
  | [c] => !isWs c || c == ' '
  | c :: d :: rest => (!isWs c || (c == ' ' && !isWs d)) && wsOk (d :: rest)

/-! ## Concrete inputs used by counterexamples and witnesses -/

/-- Markup with one 81-token paragraph: its average paragraph length is
81, between the note threshold 80 and the penalty threshold 100. -/
def c1Html : List Char :=
  ("<p>" ++ String.intercalate " " (List.replicate 81 "w") ++ "</p>").data

/-- An image tag with no `alt` attribute but with a `data-alt`
attribute. -/
def c6Tag : List Char := "<img src=\"x.png\" data-alt=\"cat\">".data

/-- A button with empty inner text, no `aria-label` attribute, but with
a `data-aria-label` attribute. -/
def c7Block : List Char := "<button data-aria-label=\"x\"></button>".data

end OpalAnalyzer

namespace OpalAnalyzer

/-! ## Lemmas about the first `>` split -/

theorem splitAtGt_none_iff {l : List Char} : splitAtGt l = none ↔ '>' ∉ l := by
  induction l with
  | nil => simp [splitAtGt]
  | cons c rest ih =>
    simp only [splitAtGt, List.mem_cons]
    by_cases hc : c = '>'
    · simp [hc]
    · simp only [beq_iff_eq, hc, if_false]
      cases h : splitAtGt rest with
      | none =>
        rw [h] at ih
        simp only [true_iff] at ih
        simp [hc, ih, eq_comm]
      | some p =>
        rw [h] at ih
        simp only [iff_false, reduceCtorEq, false_iff, not_not] at ih
        simp [hc, ih]

theorem splitAtGt_some_length {l a b : List Char} (h : splitAtGt l = some (a, b)) :
    b.length < l.length := by
  induction l generalizing a b with
  | nil => simp [splitAtGt] at h
  | cons c rest ih =>
    simp only [splitAtGt] at h
    by_cases hc : c = '>'
    · simp only [hc, beq_self_eq_true, if_true, Option.some.injEq, Prod.mk.injEq] at h
      rw [← h.2]
      simp
    · simp only [beq_iff_eq, hc, if_false] at h
      cases hs : splitAtGt rest with
      | none => rw [hs] at h; simp at h
      | some p =>
        rw [hs] at h
        simp only [Option.some.injEq, Prod.mk.injEq] at h
        have hlt := ih (a := p.1) (b := p.2) (by rw [hs])
        rw [← h.2]
        simp only [List.length_cons]
        omega

/-! ## The tag-replacement state machine agrees with the span-wise
specification reading -/

theorem rtAux_pend (l pend : List Char) :
    rtAux (some pend) l =
      (match splitAtGt l with
       | some (_, after) => ' ' :: rtAux none after
       | none => pend.reverse ++ l) := by
  induction l generalizing pend with
  | nil => simp [rtAux, splitAtGt]
  | cons c rest ih =>
    by_cases hc : c = '>'
    · simp [rtAux, splitAtGt, hc]
    · simp only [rtAux, splitAtGt, beq_iff_eq, hc, if_false]
      rw [ih (c :: pend)]
      cases hs : splitAtGt rest with
      | none => simp
      | some p => simp

theorem specReplaceAux_no_gt {l : List Char} (rep : List Char) (fuel : Nat)
    (h : '>' ∉ l) : specReplaceAux rep fuel l = l := by
  induction fuel generalizing l with
  | zero => rfl
  | succ fuel ih =>
    cases l with
    | nil => rfl
    | cons c rest =>
      have hrest : '>' ∉ rest := fun hm => h (List.mem_cons_of_mem _ hm)
      by_cases hc : c = '<'
      · have hnone : splitAtGt rest = none := splitAtGt_none_iff.mpr hrest
        simp [specReplaceAux, hc, hnone, ih hrest]
      · simp [specReplaceAux, hc, ih hrest]

theorem rtAux_eq_spec : ∀ fuel (l : List Char), l.length ≤ fuel →
    rtAux none l = specReplaceAux [' '] fuel l := by
  intro fuel
  induction fuel with
  | zero =>
    intro l h
    have : l = [] := List.length_eq_zero.mp (Nat.le_zero.mp h)
    subst this
    rfl
  | succ fuel ih =>
    intro l h
    cases l with
    | nil => rfl
    | cons c rest =>
      simp only [List.length_cons, Nat.succ_le_succ_iff] at h
      by_cases hc : c = '<'
      · subst hc
        simp only [rtAux, beq_self_eq_true, if_true, specReplaceAux]
        rw [rtAux_pend]
        cases hs : splitAtGt rest with
        | none =>
          have hng : '>' ∉ rest := splitAtGt_none_iff.mp hs
          simp [specReplaceAux_no_gt _ _ hng]
        | some p =>
          have hlt : p.2.length < rest.length := splitAtGt_some_length (by rw [hs])
          simp only []
          rw [ih p.2 (by omega)]
          rfl
      · simp only [rtAux, beq_iff_eq, hc, if_false, specReplaceAux]
        rw [ih rest h]

theorem replaceTags_eq_specReplace (l : List Char) :
    replaceTags l = specReplace [' '] l :=
  rtAux_eq_spec l.length l le_rfl

/-! ## The heading jump walk counts consecutive pairs -/

theorem countJumps_eq_countP (ls : List Nat) :
    countJumps ls = (ls.zip ls.tail).countP (fun p => decide (p.1 + 2 < p.2)) := by
  induction ls with
  | nil => rfl
  | cons a rest ih =>
    cases rest with
    | nil => rfl
    | cons b rest2 =>
      simp only [countJumps, List.tail_cons, List.zip_cons_cons, List.countP_cons]
      rw [ih]
      simp only [List.tail_cons]
      by_cases hj : a + 2 < b
      · simp [hj, Nat.add_comm]
      · simp [hj]

/-! ## Unfolding equations for the whitespace state machine -/

theorem cwAux_cons_ws_true {c : Char} {rest : List Char} (h : isWs c = true) :
    cwAux true (c :: rest) = cwAux true rest := by
  simp [cwAux, h]

theorem cwAux_cons_ws_false {c : Char} {rest : List Char} (h : isWs c = true) :
    cwAux false (c :: rest) = ' ' :: cwAux true rest := by
  simp [cwAux, h]

theorem cwAux_cons_not_ws {c : Char} {rest : List Char} (b : Bool) (h : isWs c = false) :
    cwAux b (c :: rest) = c :: cwAux false rest := by
  simp [cwAux, h]

/-! ## The tag-free normal form -/

theorem noTag_cons {c : Char} {rest : List Char} :
    noTag (c :: rest) = ((c != '<' || decide ('>' ∉ rest)) && noTag rest) := rfl

theorem noTag_tail {c : Char} {rest : List Char} (h : noTag (c :: rest) = true) :
    noTag rest = true := by
  rw [noTag_cons, Bool.and_eq_true] at h
  exact h.2

theorem noTag_of_no_gt {l : List Char} (h : '>' ∉ l) : noTag l = true := by
  induction l with
  | nil => rfl
  | cons c rest ih =>
    have hr : '>' ∉ rest := fun hm => h (List.mem_cons_of_mem _ hm)
    rw [noTag_cons, Bool.and_eq_true]
    exact ⟨by simp [hr], ih hr⟩

theorem noTag_head_gt {rest : List Char} (h : noTag ('<' :: rest) = true) : '>' ∉ rest := by
  rw [noTag_cons, Bool.and_eq_true] at h
  simpa using h.1

theorem rtAux_none_id {l : List Char} (h : noTag l = true) : rtAux none l = l := by
  induction l with
  | nil => rfl
  | cons c rest ih =>
    by_cases hc : c = '<'
    · subst hc
      have hng : '>' ∉ rest := noTag_head_gt h
      simp only [rtAux, beq_self_eq_true, if_true]
      rw [rtAux_pend, splitAtGt_none_iff.mpr hng]
      rfl
    · simp only [rtAux, beq_iff_eq, hc, if_false]
      rw [ih (noTag_tail h)]

theorem noTag_rtAux : ∀ (n : Nat) (l : List Char), l.length ≤ n →
    noTag (rtAux none l) = true := by
  intro n
  induction n with
  | zero =>
    intro l h
    have : l = [] := List.length_eq_zero.mp (Nat.le_zero.mp h)
    subst this
    rfl
  | succ n ih =>
    intro l h
    cases l with
    | nil => rfl
    | cons c rest =>
      simp only [List.length_cons, Nat.succ_le_succ_iff] at h
      by_cases hc : c = '<'
      · subst hc
        simp only [rtAux, beq_self_eq_true, if_true]
        rw [rtAux_pend]
        cases hs : splitAtGt rest with
        | none =>
          have hng : '>' ∉ rest := splitAtGt_none_iff.mp hs
          show noTag ('<' :: rest) = true
          rw [noTag_cons, Bool.and_eq_true]
          exact ⟨by simp [hng], noTag_of_no_gt hng⟩
        | some p =>
          have hlt : p.2.length < rest.length := splitAtGt_some_length (by rw [hs])
          show noTag (' ' :: rtAux none p.2) = true
          rw [noTag_cons, Bool.and_eq_true]
          refine ⟨?_, ih p.2 (by omega)⟩
          simp
      · simp only [rtAux, beq_iff_eq, hc, if_false]
        rw [noTag_cons, Bool.and_eq_true]
        refine ⟨?_, ih rest h⟩
        simp [hc]

theorem mem_of_mem_cwAux {x : Char} {l : List Char} :
    ∀ b, x ∈ cwAux b l → x ∈ l ∨ x = ' ' := by
  induction l with
  | nil => intro b h; simp [cwAux] at h
  | cons c rest ih =>
    intro b h
    by_cases hw : isWs c = true
    · cases b with
      | true =>
        rw [cwAux_cons_ws_true hw] at h
        rcases ih true h with h1 | h1
        · exact Or.inl (List.mem_cons_of_mem _ h1)
        · exact Or.inr h1
      | false =>
        rw [cwAux_cons_ws_false hw] at h
        rcases List.mem_cons.mp h with h1 | h1
        · exact Or.inr h1
        · rcases ih true h1 with h2 | h2
          · exact Or.inl (List.mem_cons_of_mem _ h2)
          · exact Or.inr h2
    · rw [cwAux_cons_not_ws b (eq_false_of_ne_true hw)] at h
      rcases List.mem_cons.mp h with h1 | h1
      · exact Or.inl (h1 ▸ List.mem_cons_self _ _)
      · rcases ih false h1 with h2 | h2
        · exact Or.inl (List.mem_cons_of_mem _ h2)
        · exact Or.inr h2

theorem noTag_cwAux {l : List Char} (h : noTag l = true) :
    ∀ b, noTag (cwAux b l) = true := by
  induction l with
  | nil => intro b; rfl
  | cons c rest ih =>
    intro b
    have ht := noTag_tail h
    by_cases hw : isWs c = true
    · cases b with
      | true =>
        rw [cwAux_cons_ws_true hw]
        exact ih ht true
      | false =>
        rw [cwAux_cons_ws_false hw, noTag_cons, Bool.and_eq_true]
        exact ⟨by simp, ih ht true⟩
    · rw [cwAux_cons_not_ws b (eq_false_of_ne_true hw), noTag_cons, Bool.and_eq_true]
      refine ⟨?_, ih ht false⟩
      by_cases hc : c = '<'
      · subst hc
        have hng : '>' ∉ rest := noTag_head_gt h
        have hng2 : '>' ∉ cwAux false rest := by
          intro hm
          rcases mem_of_mem_cwAux false hm with h1 | h1
          · exact hng h1
          · exact absurd h1 (by decide)
        simp [hng2]
      · simp [hc]

theorem noTag_dropWhile {l : List Char} (p : Char → Bool) (h : noTag l = true) :
    noTag (l.dropWhile p) = true := by
  induction l with
  | nil => exact h
  | cons c rest ih =>
    rw [List.dropWhile_cons]
    by_cases hp : p c = true
    · rw [if_pos hp]
      exact ih (noTag_tail h)
    · rw [if_neg hp]
      exact h

theorem noTag_append_left {a b : List Char} (h : noTag (a ++ b) = true) :
    noTag a = true := by
  induction a with
  | nil => rfl
  | cons c a2 ih =>
    rw [List.cons_append, noTag_cons, Bool.and_eq_true] at h
    rw [noTag_cons, Bool.and_eq_true]
    refine ⟨?_, ih h.2⟩
    by_cases hc : c = '<'
    · subst hc
      have h1 := h.1
      simp only [bne_self_eq_false, Bool.false_or, decide_eq_true_eq] at h1
      have : '>' ∉ a2 := fun hm => h1 (List.mem_append_left _ hm)
      simp [this]
    · simp [hc]

theorem trimRight_decomp (l : List Char) : ∃ t, l = trimRight l ++ t := by
  refine ⟨(l.reverse.takeWhile isWs).reverse, ?_⟩
  have h := List.takeWhile_append_dropWhile (p := isWs) (l := l.reverse)
  have h2 := congrArg List.reverse h
  rw [List.reverse_append, List.reverse_reverse] at h2
  exact h2.symm

theorem noTag_trimRight {l : List Char} (h : noTag l = true) :
    noTag (trimRight l) = true := by
  obtain ⟨t, ht⟩ := trimRight_decomp l
  exact noTag_append_left (a := trimRight l) (b := t) (by rw [← ht]; exact h)

/-! ## The whitespace normal form -/

theorem wsOk_singleton {c : Char} : wsOk [c] = (!isWs c || c == ' ') := rfl

theorem wsOk_cons₂ {c d : Char} {rest : List Char} :
    wsOk (c :: d :: rest) = ((!isWs c || (c == ' ' && !isWs d)) && wsOk (d :: rest)) := rfl

theorem wsOk_tail {c : Char} {rest : List Char} (h : wsOk (c :: rest) = true) :
    wsOk rest = true := by
  cases rest with
  | nil => rfl
  | cons d r =>
    rw [wsOk_cons₂, Bool.and_eq_true] at h
    exact h.2

theorem wsOk_cons_not_ws {c : Char} {X : List Char} (hc : isWs c = false)
    (h : wsOk X = true) : wsOk (c :: X) = true := by
  cases X with
  | nil => simp [wsOk_singleton, hc]
  | cons d r =>
    rw [wsOk_cons₂, Bool.and_eq_true]
    exact ⟨by simp [hc], h⟩

theorem cwAux_true_shape (l : List Char) : cwAux true l = [] ∨
    ∃ d r, cwAux true l = d :: r ∧ isWs d = false := by
  induction l with
  | nil => exact Or.inl rfl
  | cons c rest ih =>
    by_cases hw : isWs c = true
    · rw [cwAux_cons_ws_true hw]
      exact ih
    · have hw' := eq_false_of_ne_true hw
      exact Or.inr ⟨c, cwAux false rest, cwAux_cons_not_ws true hw', hw'⟩

theorem wsOk_cwAux (l : List Char) : ∀ b, wsOk (cwAux b l) = true := by
  induction l with
  | nil => intro b; rfl
  | cons c rest ih =>
    intro b
    by_cases hw : isWs c = true
    · cases b with
      | true =>
        rw [cwAux_cons_ws_true hw]
        exact ih true
      | false =>
        rw [cwAux_cons_ws_false hw]
        rcases cwAux_true_shape rest with h0 | ⟨d, r, hdr, hd⟩
        · rw [h0]
          decide
        · rw [hdr, wsOk_cons₂, Bool.and_eq_true]
          refine ⟨by simp [hd], ?_⟩
          rw [← hdr]
          exact ih true
    · rw [cwAux_cons_not_ws b (eq_false_of_ne_true hw)]
      exact wsOk_cons_not_ws (eq_false_of_ne_true hw) (ih false)

theorem cwAux_false_id {l : List Char} (h : wsOk l = true) : cwAux false l = l := by
  induction l with
  | nil => rfl
  | cons c rest ih =>
    by_cases hw : isWs c = true
    · cases rest with
      | nil =>
        rw [wsOk_singleton, hw] at h
        simp only [Bool.not_true, Bool.false_or, beq_iff_eq] at h
        subst h
        decide
      | cons d r =>
        rw [wsOk_cons₂, Bool.and_eq_true] at h
        have hcd : c = ' ' ∧ isWs d = false := by
          have h1 := h.1
          rw [hw] at h1
          simp only [Bool.not_true, Bool.false_or, Bool.and_eq_true, beq_iff_eq,
            Bool.not_eq_true'] at h1
          exact h1
        have hrec : cwAux false (d :: r) = d :: r := ih h.2
        rw [cwAux_cons_not_ws false hcd.2] at hrec
        have hr : cwAux false r = r := (List.cons.injEq _ _ _ _ ▸ hrec).2
        rw [cwAux_cons_ws_false hw, hcd.1, cwAux_cons_not_ws true hcd.2, hr]
    · have hw' := eq_false_of_ne_true hw
      rw [cwAux_cons_not_ws false hw', ih (wsOk_tail h)]

theorem wsOk_dropWhile {l : List Char} (p : Char → Bool) (h : wsOk l = true) :
    wsOk (l.dropWhile p) = true := by
  induction l with
  | nil => exact h
  | cons c rest ih =>
    rw [List.dropWhile_cons]
    by_cases hp : p c = true
    · rw [if_pos hp]
      exact ih (wsOk_tail h)
    · rw [if_neg hp]
      exact h

theorem wsOk_append_left {a b : List Char} (h : wsOk (a ++ b) = true) :
    wsOk a = true := by
  induction a with
  | nil => rfl
  | cons c a2 ih =>
    cases a2 with
    | nil =>
      cases b with
      | nil => simpa using h
      | cons d r =>
        rw [List.singleton_append, wsOk_cons₂, Bool.and_eq_true] at h
        rw [wsOk_singleton]
        have h1 := h.1
        rw [Bool.or_eq_true] at h1
        rcases h1 with h1 | h1
        · simp [h1]
        · rw [Bool.and_eq_true] at h1
          simp [h1.1]
    | cons c2 a3 =>
      rw [List.cons_append, List.cons_append, wsOk_cons₂, Bool.and_eq_true] at h
      rw [wsOk_cons₂, Bool.and_eq_true]
      refine ⟨h.1, ih ?_⟩
      rw [List.cons_append]
      exact h.2

theorem wsOk_trimRight {l : List Char} (h : wsOk l = true) :
    wsOk (trimRight l) = true := by
  obtain ⟨t, ht⟩ := trimRight_decomp l
  exact wsOk_append_left (a := trimRight l) (b := t) (by rw [← ht]; exact h)

/-! ## Trimming is idempotent -/

theorem dropWhile_head_false {p : Char → Bool} :
    ∀ {l : List Char} {c : Char} {r : List Char}, l.dropWhile p = c :: r → p c = false := by
  intro l
  induction l with
  | nil => intro c r h; simp at h
  | cons x xs ih =>
    intro c r h
    rw [List.dropWhile_cons] at h
    by_cases hp : p x = true
    · rw [if_pos hp] at h
      exact ih h
    · rw [if_neg hp] at h
      obtain ⟨h1, _⟩ := List.cons.inj h
      rw [← h1]
      exact eq_false_of_ne_true hp

theorem dropWhile_idem {p : Char → Bool} (l : List Char) :
    (l.dropWhile p).dropWhile p = l.dropWhile p := by
  cases h : l.dropWhile p with
  | nil => rfl
  | cons c r =>
    rw [List.dropWhile_cons]
    simp [dropWhile_head_false h]

theorem trimRight_trimRight (l : List Char) : trimRight (trimRight l) = trimRight l := by
  unfold trimRight
  rw [List.reverse_reverse, dropWhile_idem]

theorem trimLeft_trimRight_trimLeft (l : List Char) :
    trimLeft (trimRight (trimLeft l)) = trimRight (trimLeft l) := by
  cases hz : trimLeft l with
  | nil => rfl
  | cons c r =>
    have hc : isWs c = false := dropWhile_head_false hz
    obtain ⟨t, ht⟩ := trimRight_decomp (c :: r)
    cases hw : trimRight (c :: r) with
    | nil => rfl
    | cons d r2 =>
      rw [hw] at ht
      have hd : c = d := (List.cons.inj (by simpa using ht)).1
      unfold trimLeft
      rw [List.dropWhile_cons, ← hd, hc]
      simp

theorem trimWs_trimWs (l : List Char) : trimWs (trimWs l) = trimWs l := by
  unfold trimWs
  rw [trimLeft_trimRight_trimLeft, trimRight_trimRight]

/-! ## Claim theorems -/

theorem some_if_eq_left {c : Prop} [Decidable c] {A B : String} (hAB : A ≠ B) :
    some (if c then A else B) = some A ↔ c := by
  by_cases h : c <;> simp [h, hAB, Ne.symm hAB]

theorem some_if_eq_right {c : Prop} [Decidable c] {A B : String} (hAB : A ≠ B) :
    some (if c then A else B) = some B ↔ ¬ c := by
  by_cases h : c <;> simp [h, hAB, Ne.symm hAB]

set_option maxRecDepth 8000 in
/-- C1, counterexample: on a markup whose single paragraph has 81 tokens
the average paragraph length is 81, which is not above the penalty
threshold 100 (the −20 penalty does not fire, the score stays at 60 with
only the image and heading penalties), yet the emitted paragraph-length
note is the negative variant — so the note is not keyed on the same
condition as the penalty. -/
theorem C1_note_threshold_counterexample :
    avgParagraphLength c1Html = 81 ∧
    ¬ avgParagraphLength c1Html > 100 ∧
    scanabilityScore c1Html = 60 ∧
    (densityNotes c1Html)[0]? =
      some "Paragraphs are long; consider splitting large blocks of text." := by
  have hcounts : paragraphWordCounts c1Html = [81] := by decide
  have himg : imageCount c1Html = 0 := by decide
  have hhead : headingCount c1Html = 0 := by decide
  have havg : avgParagraphLength c1Html = 81 := by
    unfold avgParagraphLength
    rw [hcounts]
    norm_num
  refine ⟨havg, by rw [havg]; norm_num, ?_, ?_⟩
  · unfold scanabilityScore
    rw [havg, himg, hhead]
    norm_num
  · unfold densityNotes
    rw [havg]
    rw [if_pos (by norm_num : (81 : ℚ) > 80)]
    rfl

/-- C1 (amended): the density evaluator emits exactly three notes in the
fixed order paragraph-length note, image note, heading note; the image
note is negative exactly when the image count is 0 and the heading note
exactly when the heading count is 0 (the same conditions as their −20
penalties), but the paragraph-length note is negative exactly when the
average paragraph length exceeds 80 tokens — a lower threshold than the
100 of the −20 penalty. -/
theorem C1_notes_order_and_conditions (html : List Char) :
    (densityNotes html).length = 3 ∧
    ((densityNotes html)[0]? =
        some "Paragraphs are long; consider splitting large blocks of text."
      ↔ avgParagraphLength html > 80) ∧
    ((densityNotes html)[0]? = some "Paragraph length seems reasonable."
      ↔ ¬ avgParagraphLength html > 80) ∧
    ((densityNotes html)[1]? = some "No images found; consider adding supporting visuals."
      ↔ imageCount html = 0) ∧
    ((densityNotes html)[1]? = some "Contains imagery to break up text."
      ↔ imageCount html ≠ 0) ∧
    ((densityNotes html)[2]? = some "No headings found; add subheadings to improve scanning."
      ↔ headingCount html = 0) ∧
    ((densityNotes html)[2]? = some "Has headings to guide the reader."
      ↔ headingCount html ≠ 0) := by
  have hp : "Paragraphs are long; consider splitting large blocks of text." ≠
      "Paragraph length seems reasonable." := by decide
  have hi : "No images found; consider adding supporting visuals." ≠
      "Contains imagery to break up text." := by decide
  have hh : "No headings found; add subheadings to improve scanning." ≠
      "Has headings to guide the reader." := by decide
  unfold densityNotes
  refine ⟨by split_ifs <;> rfl, ?_, ?_, ?_, ?_, ?_, ?_⟩
  · exact some_if_eq_left hp
  · exact some_if_eq_right hp
  · exact some_if_eq_left hi
  · exact some_if_eq_right hi
  · exact some_if_eq_left hh
  · exact some_if_eq_right hh

/-- C2, counterexample: the Text Normalizer does not delete tag markup;
it replaces each tag with a space, so `a<br>b` normalizes to `a b`
whereas the reference definition of the claim (delete the markup, then
collapse whitespace and trim) yields `ab`. -/
theorem C2_delete_vs_space_counterexample :
    stripTags "a<br>b".data = "a b".data ∧
    specNormalizeDelete "a<br>b".data = "ab".data ∧
    stripTags "a<br>b".data ≠ specNormalizeDelete "a<br>b".data := by
  decide

/-- C2 (amended): for every content fragment the Text Normalizer returns
exactly the result of replacing every tag substring (everything between
`<` and `>`, brackets included) by a single space, then collapsing
whitespace runs and trimming; in particular `a<br>b` normalizes to
`a b`. -/
theorem C2_normalizer_replaces_tags_with_space :
    (∀ l : List Char, stripTags l = specNormalizeSpace l) ∧
    stripTags "a<br>b".data = "a b".data := by
  constructor
  · intro l
    unfold stripTags specNormalizeSpace
    rw [replaceTags_eq_specReplace]
  · decide

/-- C3: the accessibility score is the clamped linear penalty formula,
with the two h1 penalties as independent conditionals. -/
theorem C3_accessibility_score_formula (html : List Char) :
    accessibilityScore html =
      max 0 (100 - (if h1Count html = 0 then 10 else 0)
                 - (if h1Count html > 1 then 10 else 0)
                 - 2 * (imagesMissingAlt html : Int)
                 - 3 * (unlabeledButtons html : Int)
                 - 5 * (headingOrderIssues html : Int)) := by
  unfold accessibilityScore
  dsimp only
  split_ifs <;> omega

/-- C4: the scanability score is the clamped three-penalty formula, each
penalty applied exactly once, and the average paragraph length is the
mean token count over the normalized nonempty paragraphs, defined as 0
when there are none. -/
theorem C4_scanability_score_formula (html : List Char) :
    scanabilityScore html =
      max 0 (100 - (if avgParagraphLength html > 100 then 20 else 0)
                 - (if imageCount html = 0 then 20 else 0)
                 - (if headingCount html = 0 then 20 else 0)) ∧
    (paragraphTexts html = [] → avgParagraphLength html = 0) ∧
    (paragraphTexts html ≠ [] →
      avgParagraphLength html
        = ((paragraphWordCounts html).sum : ℚ) / ((paragraphWordCounts html).length : ℚ)) := by
  refine ⟨?_, ?_, ?_⟩
  · unfold scanabilityScore
    dsimp only
    split_ifs <;> omega
  · intro h
    unfold avgParagraphLength paragraphWordCounts
    simp [h]
  · intro h
    unfold avgParagraphLength
    have hlen : (paragraphWordCounts html).length ≠ 0 := by
      unfold paragraphWordCounts
      simpa using h
    simp [hlen]

/-- C5: the heading-order issue count equals the number of consecutive
pairs of document-order heading levels whose increase exceeds 2; the
h1, h2, h5 sequence yields exactly one issue and h1, h2, h3 yields
none. -/
theorem C5_heading_order_pairs (html : List Char) :
    headingOrderIssues html
      = ((headingLevelsOf html).zip (headingLevelsOf html).tail).countP
          (fun p => decide (p.1 + 2 < p.2)) ∧
    headingLevelsOf "<h1></h1><h2></h2><h5></h5>".data = [1, 2, 5] ∧
    headingOrderIssues "<h1></h1><h2></h2><h5></h5>".data = 1 ∧
    headingLevelsOf "<h1></h1><h2></h2><h3></h3>".data = [1, 2, 3] ∧
    headingOrderIssues "<h1></h1><h2></h2><h3></h3>".data = 0 := by
  exact ⟨countJumps_eq_countP _, by decide, by decide, by decide, by decide⟩

/-- C6, counterexample: the markup consisting of a single image tag that
has no `alt` attribute at all (only a `data-alt` attribute, which is not
an `alt` attribute token) is nevertheless not counted as missing alt
text, because the word-boundary lookup reads the `data-alt` value. -/
theorem C6_data_alt_counterexample :
    imgTagsOf c6Tag = [c6Tag] ∧
    specHasAttr "alt".data c6Tag = false ∧
    imagesMissingAlt c6Tag = 0 := by
  decide

/-- C6 (amended): an image tag is counted toward `imagesMissingAlt`
exactly when the word-boundary `alt` lookup — which accepts double- and
single-quoted values case-insensitively but also matches `alt` inside
hyphenated attribute names such as `data-alt` — yields no value or a
value that is empty or whitespace-only after trimming; the three listed
examples behave as the claim states. -/
theorem C6_missing_alt_rule (html : List Char) :
    imagesMissingAlt html = (imgTagsOf html).countP missingAltB ∧
    (∀ tag : List Char, missingAltB tag = true ↔
      getAttrValue "alt".data tag = none ∨
      (∃ v, getAttrValue "alt".data tag = some v ∧ trimWs v = [])) ∧
    imagesMissingAlt "<img src=\"a.png\">".data = 1 ∧
    imagesMissingAlt "<img src=\"a.png\" alt=\"\">".data = 1 ∧
    imagesMissingAlt "<img src=\"a.png\" alt=\"cat\">".data = 0 := by
  refine ⟨rfl, ?_, by decide, by decide, by decide⟩
  intro tag
  unfold missingAltB
  cases hv : getAttrValue "alt".data tag with
  | none => simp
  | some v => simp [List.isEmpty_iff]

/-- C7, counterexample: a button block with empty visible text and no
`aria-label` attribute at all (only a `data-aria-label` attribute, which
is not an `aria-label` attribute token) is nevertheless not counted as
unlabeled, because the word-boundary lookup reads the `data-aria-label`
value. -/
theorem C7_data_aria_label_counterexample :
    buttonBlocksOf c7Block = [(c7Block, [])] ∧
    stripTags ([] : List Char) = [] ∧
    specHasAttr "aria-label".data c7Block = false ∧
    unlabeledButtons c7Block = 0 := by
  decide

/-- C7 (amended): a button fragment is counted toward `unlabeledButtons`
exactly when its normalized inner visible text is empty and the
word-boundary `aria-label` lookup over the whole block — which also
matches `aria-label` inside hyphenated attribute names such as
`data-aria-label` — yields no value or an empty value; the three listed
examples behave as the claim states. -/
theorem C7_unlabeled_rule (html : List Char) :
    unlabeledButtons html = (buttonBlocksOf html).countP unlabeledB ∧
    (∀ block content : List Char, unlabeledB (block, content) = true ↔
      (stripTags content = [] ∧
        (getAttrValue "aria-label".data block = none ∨
         getAttrValue "aria-label".data block = some []))) ∧
    unlabeledButtons "<button></button>".data = 1 ∧
    unlabeledButtons "<button aria-label=\"Close\"></button>".data = 0 ∧
    unlabeledButtons "<button>Close</button>".data = 0 := by
  refine ⟨rfl, ?_, by decide, by decide, by decide⟩
  intro block content
  unfold unlabeledB
  cases hv : getAttrValue "aria-label".data block with
  | none => simp [List.isEmpty_iff]
  | some v => simp [List.isEmpty_iff]

theorem noTag_trimLeft {l : List Char} (h : noTag l = true) :
    noTag (trimLeft l) = true :=
  noTag_dropWhile isWs h

theorem wsOk_trimLeft {l : List Char} (h : wsOk l = true) :
    wsOk (trimLeft l) = true :=
  wsOk_dropWhile isWs h

theorem stripTags_idem (l : List Char) : stripTags (stripTags l) = stripTags l := by
  have hnt : noTag (stripTags l) = true := by
    unfold stripTags trimWs
    exact noTag_trimRight (noTag_trimLeft (noTag_cwAux (noTag_rtAux l.length l le_rfl) false))
  have hws : wsOk (stripTags l) = true := by
    unfold stripTags trimWs
    exact wsOk_trimRight (wsOk_trimLeft (wsOk_cwAux (replaceTags l) false))
  calc stripTags (stripTags l)
      = trimWs (collapseWs (replaceTags (stripTags l))) := rfl
    _ = trimWs (collapseWs (stripTags l)) := by
        rw [show replaceTags (stripTags l) = stripTags l from rtAux_none_id hnt]
    _ = trimWs (stripTags l) := by
        rw [show collapseWs (stripTags l) = stripTags l from cwAux_false_id hws]
    _ = stripTags l := by
        show trimWs (trimWs (collapseWs (replaceTags l))) = _
        rw [trimWs_trimWs]
        rfl

/-- C8: the Text Normalizer is idempotent — normalizing an
already-normalized string returns it unchanged, because the normalized
output can contain no further tag match (no `<` is followed by a `>`),
its whitespace is already collapsed to single spaces, and it carries no
leading or trailing whitespace. -/
theorem C8_normalizer_idempotent (s : String) :
    stripTagsStr (stripTagsStr s) = stripTagsStr s := by
  unfold stripTagsStr
  rw [show (String.mk (stripTags s.data)).data = stripTags s.data from rfl, stripTags_idem]

/-- C9: the scanability score can only take the values 40, 60, 80 and
100 — the three −20 penalties deduct at most 60 from 100, so the final
clamp to 0 is unreachable and the score never falls below 40. -/
theorem C9_scanability_value_set (html : List Char) :
    (scanabilityScore html = 40 ∨ scanabilityScore html = 60 ∨
     scanabilityScore html = 80 ∨ scanabilityScore html = 100) ∧
    40 ≤ scanabilityScore html := by
  unfold scanabilityScore
  dsimp only
  split_ifs <;> omega

/-- C10: there are image tags with no `alt` attribute that are not
counted as missing alt text — the word-boundary lookup treats the
`data-alt` value as alt text — and likewise a `data-aria-label` value
supplies a button label. -/
theorem C10_word_boundary_lookup_leaks :
    getAttrValue "alt".data c6Tag = some "cat".data ∧
    specHasAttr "alt".data c6Tag = false ∧
    imgTagsOf c6Tag = [c6Tag] ∧
    imagesMissingAlt c6Tag = 0 ∧
    getAttrValue "aria-label".data c7Block = some "x".data ∧
    specHasAttr "aria-label".data c7Block = false ∧
    unlabeledButtons c7Block = 0 := by
  decide

end OpalAnalyzer
